import Mathlib

/-!
Verification of the caption/timing/title engine of the TTVClips repository,
shallowly embedded from `src/modules/processing/ffmpeg_processor.py`.

Conventions of the embedding:
* Python floats (all times and pixel sizes) are modelled as exact rationals `ℚ`.
* Python strings are modelled as Lean `String`s; where character-level
  reasoning is needed we work on the underlying `List Char` (`String.data`).
* Python's `int(x)` (truncation toward zero) is `pyInt`; `x // y` and
  `x % y` on nonnegative floats are `pyFloorDiv`/`pyMod`.
* `str.strip()` / `str.split()` use the ASCII whitespace set (the source
  relies only on these characters); `str.upper()` is `String.toUpper`
  (the texts involved are ASCII).
* Fallible code (`create_subtitle_file` returning `False` after printing an
  error) is modelled with `Option`: `none` is the error outcome and
  `some cues` is success together with the cue list written to the file.
-/

namespace TTVClips

/-- Python `int(x)`: truncation toward zero. -/
def pyInt (q : ℚ) : ℤ := if q < 0 then -(⌊-q⌋) else ⌊q⌋

/-- Python float `//` (floor division). -/
def pyFloorDiv (a b : ℚ) : ℚ := ⌊a / b⌋

/-- Python float `%` for a positive divisor. -/
def pyMod (a b : ℚ) : ℚ := a - b * ⌊a / b⌋

/-- Whitespace characters recognised by `str.strip()` / `str.split()`
(ASCII part of Python's whitespace set). -/
def isPySpace (c : Char) : Bool :=
  c = ' ' || c = '\t' || c = '\n' || c = '\x0d' || c = '\x0b' || c = '\x0c'

/-- `str.strip()` on a character list: drop leading and trailing whitespace. -/
def pyStripChars (l : List Char) : List Char :=
  ((l.dropWhile isPySpace).reverse.dropWhile isPySpace).reverse

/-- `str.strip()`. -/
def pyStrip (s : String) : String := ⟨pyStripChars s.data⟩

/-- Helper for `splitWs`: accumulates the current word (reversed) while
scanning; mirrors `str.split()` with no separator argument. -/
def splitWsAux : List Char → List Char → List (List Char)
  | [], acc => if acc = [] then [] else [acc.reverse]
  | c :: cs, acc =>
    if isPySpace c then
      if acc = [] then splitWsAux cs [] else acc.reverse :: splitWsAux cs []
    else splitWsAux cs (c :: acc)

/-- Python `str.split()` (split on whitespace runs, dropping empties),
on character lists. -/
def splitWs (l : List Char) : List (List Char) := splitWsAux l []

/-- Python `str.split()` on strings. -/
def pySplit (s : String) : List String := (splitWs s.data).map fun l => ⟨l⟩

/-- `' '.join(ws)` on character-list words. -/
def joinWordsSpace : List (List Char) → List Char
  | [] => []
  | [w] => w
  | w :: ws => w ++ ' ' :: joinWordsSpace ws

/-- A transcriber word: `{'word': ..., 'start': ..., 'end': ...}`.
The `end` key is called `stop` because `end` is a Lean keyword. -/
structure Word where
  word : String
  start : ℚ
  stop : ℚ
deriving DecidableEq

/-- A transcriber segment: `{'text': ..., 'start': ..., 'end': ..., 'words': ...}`.
An absent/empty `words` key is the empty list. -/
structure Segment where
  text : String
  start : ℚ
  stop : ℚ
  words : List Word
deriving DecidableEq

/-- A subtitle chunk / caption cue: `{'text': ..., 'start': ..., 'end': ...}`. -/
structure Cue where
  text : String
  start : ℚ
  stop : ℚ
deriving DecidableEq

/-- Default values used for Python's `lst[0]` / `lst[-1]` on chunks, which are
never empty when reached in the source. -/
def defaultWord : Word := ⟨"", 0, 0⟩

def defaultCue : Cue := ⟨"", 0, 0⟩

/-- `all_words_text = ' '.join([w['word'].strip() for w in words_data])`
(ffmpeg_processor.py line 285). -/
def allWordsText (ws : List Word) : String :=
  String.intercalate " " (ws.map fun w => pyStrip w.word)

/-- The inner growth loop of `_create_smart_chunks`
(ffmpeg_processor.py lines 300-316): starting from the partial chunk
`chunk` (nonempty, first word `first`) with concatenated text `text`,
keep appending words from `rest` while the word-count, pause-gap, chunk-span
and character-count constraints all hold.  Returns the grown chunk, its
text, and the unconsumed words. -/
def growChunk (first : Word) : List Word → String → List Word →
    List Word × String × List Word
  | chunk, text, [] => (chunk, text, [])
  | chunk, text, w :: rest =>
    if 4 ≤ chunk.length then (chunk, text, w :: rest)
    else if (0.2 : ℚ) < w.start - (chunk.getLastD first).stop then (chunk, text, w :: rest)
    else if (1.5 : ℚ) < w.stop - first.start then (chunk, text, w :: rest)
    else
      let t := text ++ " " ++ pyStrip w.word
      if 20 < t.length then (chunk, text, w :: rest)
      else growChunk first (chunk ++ [w]) t rest

/-- The "smart orphan prevention" step of `_create_smart_chunks`
(ffmpeg_processor.py lines 318-332): if exactly one word remains and the
chunk has fewer than 4 words, pull it in when it fits in 20 characters;
if exactly two words remain and the chunk has exactly one word, pull one
more in under the same bound. -/
def orphanFix (chunk : List Word) (text : String) (rest : List Word) :
    List Word × List Word :=
  match rest with
  | [r] =>
    if chunk.length < 4 then
      if (text ++ " " ++ pyStrip r.word).length ≤ 20 then (chunk ++ [r], [])
      else (chunk, rest)
    else (chunk, rest)
  | [r, r2] =>
    if chunk.length = 1 then
      if (text ++ " " ++ pyStrip r.word).length ≤ 20 then (chunk ++ [r], [r2])
      else (chunk, rest)
    else (chunk, rest)
  | _ => (chunk, rest)

/-- The outer `while i < len(words_data)` loop of `_create_smart_chunks`
(ffmpeg_processor.py lines 292-337).  `fuel` bounds the number of
iterations; each iteration consumes at least one word, so `fuel = length`
is always enough. -/
def chunksLoop : ℕ → List Word → List (List Word)
  | 0, _ => []
  | _ + 1, [] => []
  | fuel + 1, w :: rest =>
    let g := growChunk w [w] (pyStrip w.word) rest
    let o := orphanFix g.1 g.2.1 g.2.2
    o.1 :: chunksLoop fuel o.2

/-- `_create_smart_chunks` (ffmpeg_processor.py lines 279-339). -/
def createSmartChunks (ws : List Word) : List (List Word) :=
  if ws = [] then []
  else if 3 < ws.length ∧ (allWordsText ws).length ≤ 20 then [ws]
  else chunksLoop ws.length ws

/-- The greedy inner loop of the `remaining > 4` case of
`_create_smart_text_chunks` (ffmpeg_processor.py lines 419-429): take up to
`n` (= 4) words while the accumulated text stays within 20 characters.
Returns the taken words and the untaken remainder. -/
def takeFit : ℕ → String → List String → List String × List String
  | _, _, [] => ([], [])
  | 0, _, rest => ([], rest)
  | n + 1, text, w :: rest =>
    let t := if text = "" then w else text ++ " " ++ w
    if t.length ≤ 20 then
      let p := takeFit n t rest
      (w :: p.1, p.2)
    else ([], w :: rest)

/-- The `while i < len(words)` loop of `_create_smart_text_chunks`
(ffmpeg_processor.py lines 362-435), with the 1/2/3/4-leftover special
cases.  `acc` is the chunk list built so far (the 1-leftover case may append
to its last chunk).  `fuel` bounds iterations; every iteration consumes at
least one word. -/
def smartTextLoop : ℕ → List String → List (List String) → List (List String)
  | 0, _, acc => acc
  | _ + 1, [], acc => acc
  | fuel + 1, words, acc =>
    match words with
    | [] => acc
    | [w1] =>
      match acc.getLast? with
      | some lastC =>
        if (String.intercalate " " lastC ++ " " ++ w1).length ≤ 20 then
          acc.dropLast ++ [lastC ++ [w1]]
        else acc ++ [[w1]]
      | none => acc ++ [[w1]]
    | [w1, w2] =>
      if (w1 ++ " " ++ w2).length ≤ 20 then acc ++ [[w1, w2]]
      else acc ++ [[w1], [w2]]
    | [w1, w2, w3] =>
      if (w1 ++ " " ++ w2 ++ " " ++ w3).length ≤ 20 then acc ++ [[w1, w2, w3]]
      else if (w1 ++ " " ++ w2).length ≤ 20 then acc ++ [[w1, w2], [w3]]
      else acc ++ [[w1], [w2], [w3]]
    | [w1, w2, w3, w4] =>
      if (w1 ++ " " ++ w2 ++ " " ++ w3 ++ " " ++ w4).length ≤ 20 then
        acc ++ [[w1, w2, w3, w4]]
      else if (w1 ++ " " ++ w2).length ≤ 20 ∧ (w3 ++ " " ++ w4).length ≤ 20 then
        acc ++ [[w1, w2], [w3, w4]]
      else smartTextLoop fuel [w2, w3, w4] (acc ++ [[w1]])
    | w :: rest =>
      let p := takeFit 4 "" (w :: rest)
      let chunk := if p.1 = [] then [w] else p.1
      smartTextLoop fuel ((w :: rest).drop chunk.length) (acc ++ [chunk])

/-- `_create_smart_text_chunks` (ffmpeg_processor.py lines 341-437). -/
def createSmartTextChunks (words : List String) : List (List String) :=
  if words = [] then []
  else if 3 < words.length ∧ (String.intercalate " " words).length ≤ 20 then [words]
  else if words.length ≤ 3 then [words]
  else smartTextLoop words.length words []

/-- Turn one word chunk into a subtitle chunk
(ffmpeg_processor.py lines 194-211): space-joined stripped words,
upper-cased, with the end time pushed to at least `start + 0.5`. -/
def cueOfWordChunk (chunk : List Word) : Cue :=
  let text := (String.intercalate " " (chunk.map fun w => pyStrip w.word)).toUpper
  let start := (chunk.headD defaultWord).start
  let stop0 := (chunk.getLastD defaultWord).stop
  ⟨text, start, if stop0 - start < 0.5 then start + 0.5 else stop0⟩

/-- The per-segment part of `create_subtitle_file`
(ffmpeg_processor.py lines 183-240): skip blank-text segments, use the
word-timing path when word data is present, otherwise the fallback path
that distributes the segment duration over the text chunks. -/
def segCues (seg : Segment) : List Cue :=
  if pyStrip seg.text = "" then []
  else if seg.words ≠ [] then (createSmartChunks seg.words).map cueOfWordChunk
  else
    let chunks := createSmartTextChunks (pySplit seg.text)
    if chunks = [] then []
    else
      let cd := max 0.5 ((seg.stop - seg.start) / chunks.length)
      chunks.enum.map fun p =>
        ⟨(String.intercalate " " p.2).toUpper,
         seg.start + p.1 * cd,
         min (seg.start + p.1 * cd + cd) seg.stop⟩

/-- All subtitle chunks of all segments, in segment order. -/
def buildChunks (segs : List Segment) : List Cue :=
  (segs.map segCues).flatten

/-- Stable insertion used to model Python's stable `list.sort(key=start)`:
an element is placed before the first existing element with a strictly
later-or-equal start, so equal keys keep their original relative order. -/
def insertCue (c : Cue) : List Cue → List Cue
  | [] => [c]
  | d :: rest => if c.start ≤ d.start then c :: d :: rest else d :: insertCue c rest

/-- `subtitle_chunks.sort(key=lambda x: x['start'])`
(ffmpeg_processor.py line 243), as a stable sort. -/
def sortCues (cues : List Cue) : List Cue := cues.foldr insertCue []

/-- The global overlap-resolution pass (ffmpeg_processor.py lines 246-254):
for each adjacent pair, if the current chunk ends after the next one
starts, cut it to `max(start + 0.3, next_start - 0.1)`.  The in-place
Python loop only ever rewrites `end` fields of already-visited chunks, so
it is equivalent to this one-pass recursion. -/
def resolveOverlaps : List Cue → List Cue
  | [] => []
  | [c] => [c]
  | c :: d :: rest =>
    (if d.start < c.stop then { c with stop := max (c.start + 0.3) (d.start - 0.1) } else c)
      :: resolveOverlaps (d :: rest)

/-- `_seconds_to_srt_time` (ffmpeg_processor.py lines 271-277) and the
`f"{n:02d}"` paddings.  All fields are nonnegative for nonnegative input. -/
def pad2 (n : ℤ) : String := if 0 ≤ n ∧ n < 10 then "0" ++ toString n else toString n

def pad3 (n : ℤ) : String :=
  if 0 ≤ n ∧ n < 10 then "00" ++ toString n
  else if 0 ≤ n ∧ n < 100 then "0" ++ toString n
  else toString n

def secondsToSrtTime (s : ℚ) : String :=
  let hours := pyInt (pyFloorDiv s 3600)
  let minutes := pyInt (pyFloorDiv (pyMod s 3600) 60)
  let secs := pyInt (pyMod s 60)
  let millis := pyInt (pyMod s 1 * 1000)
  pad2 hours ++ ":" ++ pad2 minutes ++ ":" ++ pad2 secs ++ "," ++ pad3 millis

/-- One SRT entry of the writing loop (ffmpeg_processor.py lines 258-264):
index line, timestamp line, text line, blank separator line. -/
def srtEntry (i : ℕ) (c : Cue) : String :=
  toString i ++ "\n" ++ secondsToSrtTime c.start ++ " --> " ++ secondsToSrtTime c.stop
    ++ "\n" ++ c.text ++ "\n\n"

/-- The full text written by the SRT writing loop (1-based enumeration). -/
def srtFileContent (cues : List Cue) : String :=
  String.join ((cues.enumFrom 1).map fun p => srtEntry p.1 p.2)

/-- `create_subtitle_file` (ffmpeg_processor.py lines 173-269).
`none` models the `return False` error outcome (empty `subtitle_data`);
`some cues` models success, with `cues` the resolved cue list written to
the file. -/
def createSubtitleFile (segs : List Segment) : Option (List Cue) :=
  if segs = [] then none
  else some (resolveOverlaps (sortCues (buildChunks segs)))

/-- The emoji/symbol character class removed by `_clean_title_text`
(ffmpeg_processor.py lines 444-466), by code point. -/
def emojiChar (c : Char) : Bool :=
  let n := c.toNat
  (0x1F600 ≤ n ∧ n ≤ 0x1F64F) || (0x1F300 ≤ n ∧ n ≤ 0x1F5FF) ||
  (0x1F680 ≤ n ∧ n ≤ 0x1F6FF) || (0x1F1E0 ≤ n ∧ n ≤ 0x1F1FF) ||
  (0x2500 ≤ n ∧ n ≤ 0x2BEF) || (0x2702 ≤ n ∧ n ≤ 0x27B0) ||
  (0x24C2 ≤ n ∧ n ≤ 0x1F251) || (0x1F926 ≤ n ∧ n ≤ 0x1F937) ||
  (0x10000 ≤ n ∧ n ≤ 0x10FFFF) || (0x2640 ≤ n ∧ n ≤ 0x2642) ||
  (0x2600 ≤ n ∧ n ≤ 0x2B55) ||
  n = 0x200D || n = 0x23CF || n = 0x23E9 || n = 0x231A || n = 0xFE0F || n = 0x3030

/-- The keep-class of `re.sub(r'[^\w\s\-.,!?()\x27"]', '', text)`
(ffmpeg_processor.py line 472): word characters, whitespace, and the fixed
punctuation allowlist.  `\w` is modelled by its ASCII part (letters, digits,
underscore); the idempotence argument only uses that it is a fixed character
predicate. -/
def keepChar (c : Char) : Bool :=
  c.isAlphanum || c = '_' || isPySpace c ||
  c = '-' || c = '.' || c = ',' || c = '!' || c = '?' || c = '(' || c = ')' ||
  c = '\'' || c = '"'

/-- `_clean_title_text` (ffmpeg_processor.py lines 439-477) on character
lists: remove emoji, keep only allowed characters, collapse whitespace via
`' '.join(text.split())`, and strip. -/
def cleanChars (l : List Char) : List Char :=
  pyStripChars (joinWordsSpace (splitWs ((l.filter fun c => !emojiChar c).filter keepChar)))

/-- `_clean_title_text`. -/
def cleanTitleText (s : String) : String := ⟨cleanChars s.data⟩

/-- The `max_chars_per_line` computation of `_split_title_text`
(ffmpeg_processor.py lines 499-519): estimated character width, usable
width with margins, integer division, an extra `* 0.9` reduction under meme
style, then clamping to `[12, 50]`. -/
def maxCharsPerLine (fontSize videoWidth : ℚ) (meme : Bool) : ℤ :=
  let charWidth := if meme then fontSize * 0.8 else fontSize * 0.6
  let usableWidth := videoWidth * 0.8
  let base := pyInt (usableWidth / charWidth)
  let adjusted := if meme then pyInt ((base : ℚ) * 0.9) else base
  max 12 (min 50 adjusted)

/-- `word[:m-3] + "..."`: ellipsis truncation of an overlong word/line
(ffmpeg_processor.py lines 542 and 551). -/
def truncWord (m : ℕ) (w : List Char) : List Char := w.take (m - 3) ++ ['.', '.', '.']

/-- Whether a produced line ends in the ellipsis marker. -/
def endsWithDots (l : List Char) : Bool := l.reverse.take 3 = ['.', '.', '.']

/-- The greedy word-packing loop of `_split_title_text`
(ffmpeg_processor.py lines 528-546), including the final append of the
pending line.  `lines` is the accumulator, `current` the pending line. -/
def wrapLoop (m : ℕ) : List (List Char) → List (List Char) → List Char → List (List Char)
  | [], lines, [] => lines
  | [], lines, c :: cs => lines ++ [c :: cs]
  | w :: ws, lines, [] =>
    if w.length ≤ m then wrapLoop m ws lines w
    else wrapLoop m ws lines (if m < w.length then truncWord m w else w)
  | w :: ws, lines, c :: cs =>
    if ((c :: cs) ++ ' ' :: w).length ≤ m then wrapLoop m ws lines ((c :: cs) ++ ' ' :: w)
    else wrapLoop m ws (lines ++ [c :: cs]) (if m < w.length then truncWord m w else w)

/-- `_split_title_text` (ffmpeg_processor.py lines 479-553) with the
font-size/width parameters supplied explicitly (the source's config-default
branches only compute these parameters).  Includes the 3-line cap: when the
greedy loop yields more than 3 lines, the result is the first two lines
plus an ellipsis-truncated copy of the second. -/
def splitTitleText (text : String) (fontSize videoWidth : ℚ) (meme : Bool) : List String :=
  let m := (maxCharsPerLine fontSize videoWidth meme).toNat
  if text.length ≤ m then [text]
  else
    let lines := wrapLoop m (splitWs text.data) [] []
    let capped :=
      if 3 < lines.length then lines.take 2 ++ [truncWord m (lines.getD 1 [])]
      else lines
    capped.map fun l => (⟨l⟩ : String)

/-- Adjacent-pair non-overlap required by the claims: every cue ends no
later than the next one starts. -/
def pairNonoverlap : List Cue → Prop
  | [] => True
  | [_] => True
  | a :: b :: rest => a.stop ≤ b.start ∧ pairNonoverlap (b :: rest)

instance pairNonoverlapDec : (l : List Cue) → Decidable (pairNonoverlap l)
  | [] => isTrue trivial
  | [_] => isTrue trivial
  | _ :: b :: rest =>
    have := pairNonoverlapDec (b :: rest)
    inferInstanceAs (Decidable (_ ∧ _))

/-- Adjacent-pair bound that actually holds after overlap resolution:
each cue ends no later than `max (start + 0.3) next.start`. -/
def pairBound : List Cue → Prop
  | [] => True
  | [_] => True
  | a :: b :: rest => a.stop ≤ max (a.start + 0.3) b.start ∧ pairBound (b :: rest)

instance pairBoundDec : (l : List Cue) → Decidable (pairBound l)
  | [] => isTrue trivial
  | [_] => isTrue trivial
  | _ :: b :: rest =>
    have := pairBoundDec (b :: rest)
    inferInstanceAs (Decidable (_ ∧ _))

/-- Modelled from the spec's words for claim C2: the per-pair clamping rule
"for each adjacent pair where `cue[i].end > cue[i+1].start`, clamp
`cue[i].end = max(cue[i].start + 0.3, cue[i+1].start - 0.1)`". -/
def resolvePairSpec (c d : Cue) : Cue :=
  if c.stop > d.start then { c with stop := max (c.start + 0.3) (d.start - 0.1) } else c

/-- Modelled from the claim's words for claim C7: per-character width
`fontSize × (0.8 if meme else 0.6)`, usable width `0.8 × videoWidth`, and
`maxCharsPerLine = clamp(usableWidth/charWidth, 12, 50)` (no meme
reduction, exact division). -/
def maxCharsPerLineClaim (fontSize videoWidth : ℚ) (meme : Bool) : ℚ :=
  let charWidth := if meme then fontSize * 0.8 else fontSize * 0.6
  let usableWidth := 0.8 * videoWidth
  max 12 (min 50 (usableWidth / charWidth))

/-! ### Lemmas about the word chunker -/

theorem growChunk_join (first : Word) (rest : List Word) : ∀ chunk text,
    (growChunk first chunk text rest).1 ++ (growChunk first chunk text rest).2.2
      = chunk ++ rest := by
  induction rest with
  | nil => intro chunk text; simp [growChunk]
  | cons w rs ih =>
    intro chunk text
    simp only [growChunk]
    split
    · simp
    · split
      · simp
      · split
        · simp
        · split
          · simp
          · simpa using ih (chunk ++ [w]) _

theorem growChunk_rest_le (first : Word) (rest : List Word) : ∀ chunk text,
    (growChunk first chunk text rest).2.2.length ≤ rest.length := by
  induction rest with
  | nil => intro chunk text; simp [growChunk]
  | cons w rs ih =>
    intro chunk text
    simp only [growChunk]
    split
    · simp
    · split
      · simp
      · split
        · simp
        · split
          · simp
          · exact le_trans (ih (chunk ++ [w]) _) (Nat.le_succ _)

theorem growChunk_len_le (first : Word) (rest : List Word) : ∀ chunk text,
    chunk.length ≤ 4 →
    (growChunk first chunk text rest).1.length ≤ 4 := by
  induction rest with
  | nil => intro chunk text h; simpa [growChunk] using h
  | cons w rs ih =>
    intro chunk text h
    simp only [growChunk]
    split
    · simpa using h
    · split
      · simpa using h
      · split
        · simpa using h
        · split
          · simpa using h
          · refine ih (chunk ++ [w]) _ ?_
            have h4 : ¬ 4 ≤ chunk.length := by assumption
            simp only [List.length_append, List.length_cons, List.length_nil]
            omega

theorem growChunk_len_ge (first : Word) (rest : List Word) : ∀ chunk text,
    chunk.length ≤ (growChunk first chunk text rest).1.length := by
  induction rest with
  | nil => intro chunk text; simp [growChunk]
  | cons w rs ih =>
    intro chunk text
    simp only [growChunk]
    split
    · simp
    · split
      · simp
      · split
        · simp
        · split
          · simp
          · refine le_trans ?_ (ih (chunk ++ [w]) _)
            simp

theorem orphanFix_join (chunk : List Word) (text : String) (rest : List Word) :
    (orphanFix chunk text rest).1 ++ (orphanFix chunk text rest).2 = chunk ++ rest := by
  rcases rest with _ | ⟨r, _ | ⟨r2, rs⟩⟩
  · simp [orphanFix]
  · simp only [orphanFix]; split
    · split <;> simp
    · simp
  · rcases rs with _ | ⟨r3, rs⟩
    · simp only [orphanFix]; split
      · split <;> simp
      · simp
    · simp [orphanFix]

theorem orphanFix_rest_le (chunk : List Word) (text : String) (rest : List Word) :
    (orphanFix chunk text rest).2.length ≤ rest.length := by
  rcases rest with _ | ⟨r, _ | ⟨r2, rs⟩⟩
  · simp [orphanFix]
  · simp only [orphanFix]; split
    · split <;> simp
    · simp
  · rcases rs with _ | ⟨r3, rs⟩
    · simp only [orphanFix]; split
      · split <;> simp
      · simp
    · simp [orphanFix]

theorem orphanFix_len_le (chunk : List Word) (text : String) (rest : List Word)
    (h : chunk.length ≤ 4) :
    (orphanFix chunk text rest).1.length ≤ 4 := by
  rcases rest with _ | ⟨r, _ | ⟨r2, rs⟩⟩
  · simpa [orphanFix] using h
  · simp only [orphanFix]; split
    · split
      · have h4 : chunk.length < 4 := by assumption
        simp only [List.length_append, List.length_cons, List.length_nil]
        omega
      · simpa using h
    · simpa using h
  · rcases rs with _ | ⟨r3, rs⟩
    · simp only [orphanFix]; split
      · split
        · have h1 : chunk.length = 1 := by assumption
          simp only [List.length_append, List.length_cons, List.length_nil]
          omega
        · simpa using h
      · simpa using h
    · simpa [orphanFix] using h

theorem orphanFix_ne (chunk : List Word) (text : String) (rest : List Word)
    (h : chunk ≠ []) :
    (orphanFix chunk text rest).1 ≠ [] := by
  rcases rest with _ | ⟨r, _ | ⟨r2, rs⟩⟩
  · simpa [orphanFix] using h
  · simp only [orphanFix]; split
    · split <;> simp_all
    · simpa using h
  · rcases rs with _ | ⟨r3, rs⟩
    · simp only [orphanFix]; split
      · split <;> simp_all
      · simpa using h
    · simpa [orphanFix] using h

theorem chunksLoop_flatten : ∀ (fuel : ℕ) (l : List Word), l.length ≤ fuel →
    (chunksLoop fuel l).flatten = l := by
  intro fuel
  induction fuel with
  | zero =>
    intro l h
    have : l = [] := List.eq_nil_of_length_eq_zero (Nat.le_zero.mp h)
    simp [this, chunksLoop]
  | succ n ih =>
    intro l h
    rcases l with _ | ⟨w, rest⟩
    · simp [chunksLoop]
    · simp only [chunksLoop, List.flatten_cons]
      have hg := growChunk_join w rest [w] (pyStrip w.word)
      have hglen := growChunk_rest_le w rest [w] (pyStrip w.word)
      have ho := orphanFix_join (growChunk w [w] (pyStrip w.word) rest).1
        (growChunk w [w] (pyStrip w.word) rest).2.1
        (growChunk w [w] (pyStrip w.word) rest).2.2
      have holen := orphanFix_rest_le (growChunk w [w] (pyStrip w.word) rest).1
        (growChunk w [w] (pyStrip w.word) rest).2.1
        (growChunk w [w] (pyStrip w.word) rest).2.2
      rw [ih _ (by simp only [List.length_cons] at h; omega)]
      rw [ho, hg]
      simp

theorem chunksLoop_len_le : ∀ (fuel : ℕ) (l : List Word),
    ∀ c ∈ chunksLoop fuel l, c.length ≤ 4 := by
  intro fuel
  induction fuel with
  | zero => intro l c hc; simp [chunksLoop] at hc
  | succ n ih =>
    intro l c hc
    rcases l with _ | ⟨w, rest⟩
    · simp [chunksLoop] at hc
    · simp only [chunksLoop, List.mem_cons] at hc
      rcases hc with hc | hc
      · subst hc
        exact orphanFix_len_le _ _ _
          (growChunk_len_le w rest [w] (pyStrip w.word) (by simp))
      · exact ih _ _ hc

theorem chunksLoop_ne : ∀ (fuel : ℕ) (l : List Word),
    ∀ c ∈ chunksLoop fuel l, c ≠ [] := by
  intro fuel
  induction fuel with
  | zero => intro l c hc; simp [chunksLoop] at hc
  | succ n ih =>
    intro l c hc
    rcases l with _ | ⟨w, rest⟩
    · simp [chunksLoop] at hc
    · simp only [chunksLoop, List.mem_cons] at hc
      rcases hc with hc | hc
      · subst hc
        refine orphanFix_ne _ _ _ ?_
        have := growChunk_len_ge w rest [w] (pyStrip w.word)
        intro hnil
        rw [hnil] at this
        simp at this
      · exact ih _ _ hc

theorem pyInt_eq_floor (q : ℚ) (h : 0 ≤ q) : pyInt q = ⌊q⌋ :=
  if_neg (not_lt.mpr h)

/-! ### Lemmas about overlap resolution -/

theorem resolve_head_start (d : Cue) (rest : List Cue) :
    ∀ y, (resolveOverlaps (d :: rest)).head? = some y → y.start = d.start := by
  rcases rest with _ | ⟨e, rs⟩
  · intro y hy
    simp [resolveOverlaps] at hy
    rw [← hy]
  · intro y hy
    simp only [resolveOverlaps, List.head?_cons, Option.some.injEq] at hy
    rw [← hy]
    split <;> rfl

theorem pairBound_cons_of (x : Cue) (M : List Cue) (hM : pairBound M)
    (hx : ∀ y, M.head? = some y → x.stop ≤ max (x.start + 0.3) y.start) :
    pairBound (x :: M) := by
  cases M with
  | nil => trivial
  | cons m M' => exact ⟨hx m rfl, hM⟩

theorem resolve_pairBound (l : List Cue) : pairBound (resolveOverlaps l) := by
  induction l with
  | nil => trivial
  | cons c tail ih =>
    rcases tail with _ | ⟨d, rest⟩
    · trivial
    · simp only [resolveOverlaps]
      refine pairBound_cons_of _ _ ih ?_
      intro y hy
      have hstart := resolve_head_start d rest y hy
      rw [hstart]
      split
      · simp only
        refine max_le_max (le_refl _) ?_
        linarith [show (0 : ℚ) ≤ 0.1 by norm_num]
      · rename_i hlt
        exact le_max_of_le_right (le_of_not_lt hlt)

theorem resolve_mem (l : List Cue) : ∀ c ∈ resolveOverlaps l,
    ∃ c0 ∈ l, c.text = c0.text ∧ c.start = c0.start ∧
      min c0.stop (c0.start + 0.3) ≤ c.stop := by
  induction l with
  | nil => intro c hc; simp [resolveOverlaps] at hc
  | cons c0 tail ih =>
    rcases tail with _ | ⟨d, rest⟩
    · intro c hc
      simp only [resolveOverlaps, List.mem_singleton] at hc
      subst hc
      exact ⟨c, List.mem_singleton_self c, rfl, rfl, min_le_left _ _⟩
    · intro c hc
      simp only [resolveOverlaps, List.mem_cons] at hc
      rcases hc with hc | hc
      · subst hc
        split
        · refine ⟨c0, List.mem_cons_self _ _, rfl, rfl, ?_⟩
          simp only
          exact le_trans (min_le_right _ _) (le_max_left _ _)
        · exact ⟨c0, List.mem_cons_self _ _, rfl, rfl, min_le_left _ _⟩
      · obtain ⟨e, he, h1, h2, h3⟩ := ih c hc
        exact ⟨e, List.mem_cons_of_mem _ he, h1, h2, h3⟩

theorem resolve_getD : ∀ (l : List Cue) (i : ℕ), i + 1 < l.length →
    (resolveOverlaps l).getD i defaultCue
      = resolvePairSpec (l.getD i defaultCue) (l.getD (i + 1) defaultCue) := by
  intro l
  induction l with
  | nil => intro i h; simp at h
  | cons c tail ih =>
    rcases tail with _ | ⟨d, rest⟩
    · intro i h; simp at h
    · intro i h
      cases i with
      | zero => simp [resolveOverlaps, resolvePairSpec, GT.gt]
      | succ j =>
        simp only [resolveOverlaps, List.getD_cons_succ]
        refine ih j ?_
        simp only [List.length_cons] at h ⊢
        omega

/-! ### Lemmas about the text normalizer -/

theorem splitWsAux_mem : ∀ (l acc : List Char),
    (∀ c ∈ acc, isPySpace c = false) →
    ∀ w ∈ splitWsAux l acc, ∀ c ∈ w, (c ∈ l ∨ c ∈ acc) ∧ isPySpace c = false := by
  intro l
  induction l with
  | nil =>
    intro acc hacc w hw c hc
    simp only [splitWsAux] at hw
    split at hw
    · simp at hw
    · simp only [List.mem_singleton] at hw
      subst hw
      rw [List.mem_reverse] at hc
      exact ⟨Or.inr hc, hacc c hc⟩
  | cons a as ih =>
    intro acc hacc w hw c hc
    simp only [splitWsAux] at hw
    split at hw
    · split at hw
      · have := ih [] (by simp) w hw c hc
        rcases this with ⟨hmem | hmem, hsp⟩
        · exact ⟨Or.inl (List.mem_cons_of_mem _ hmem), hsp⟩
        · simp at hmem
      · rcases List.mem_cons.mp hw with hw | hw
        · subst hw
          rw [List.mem_reverse] at hc
          exact ⟨Or.inr hc, hacc c hc⟩
        · have := ih [] (by simp) w hw c hc
          rcases this with ⟨hmem | hmem, hsp⟩
          · exact ⟨Or.inl (List.mem_cons_of_mem _ hmem), hsp⟩
          · simp at hmem
    · rename_i hnsp
      have hacc' : ∀ c ∈ a :: acc, isPySpace c = false := by
        intro c hc
        rcases List.mem_cons.mp hc with hc | hc
        · subst hc; exact eq_false_of_ne_true hnsp
        · exact hacc c hc
      have := ih (a :: acc) hacc' w hw c hc
      rcases this with ⟨hmem | hmem, hsp⟩
      · exact ⟨Or.inl (List.mem_cons_of_mem _ hmem), hsp⟩
      · rcases List.mem_cons.mp hmem with hc' | hc'
        · subst hc'; exact ⟨Or.inl (List.mem_cons_self _ _), hsp⟩
        · exact ⟨Or.inr hc', hsp⟩

theorem splitWsAux_ne : ∀ (l acc : List Char), ∀ w ∈ splitWsAux l acc, w ≠ [] := by
  intro l
  induction l with
  | nil =>
    intro acc w hw
    simp only [splitWsAux] at hw
    split at hw
    · simp at hw
    · rename_i hacc
      simp only [List.mem_singleton] at hw
      subst hw
      simpa using hacc
  | cons a as ih =>
    intro acc w hw
    simp only [splitWsAux] at hw
    split at hw
    · split at hw
      · exact ih [] w hw
      · rename_i hacc
        rcases List.mem_cons.mp hw with hw | hw
        · subst hw; simpa using hacc
        · exact ih [] w hw
    · exact ih (a :: acc) w hw

theorem splitWs_mem (l : List Char) :
    ∀ w ∈ splitWs l, ∀ c ∈ w, c ∈ l ∧ isPySpace c = false := by
  intro w hw c hc
  have := splitWsAux_mem l [] (by simp) w hw c hc
  rcases this with ⟨hmem | hmem, hsp⟩
  · exact ⟨hmem, hsp⟩
  · simp at hmem

theorem splitWs_ne (l : List Char) : ∀ w ∈ splitWs l, w ≠ [] :=
  splitWsAux_ne l []

theorem splitWsAux_append_nonspace : ∀ (w acc rest : List Char),
    (∀ c ∈ w, isPySpace c = false) →
    splitWsAux (w ++ rest) acc = splitWsAux rest (w.reverse ++ acc) := by
  intro w
  induction w with
  | nil => intro acc rest _; simp
  | cons a w' ih =>
    intro acc rest h
    have ha : isPySpace a = false := h a (List.mem_cons_self _ _)
    simp only [List.cons_append, splitWsAux, ha, Bool.false_eq_true, if_false,
      List.append_eq]
    rw [ih (a :: acc) rest (fun c hc => h c (List.mem_cons_of_mem _ hc))]
    simp

theorem splitWs_joinWordsSpace : ∀ (ws : List (List Char)),
    (∀ w ∈ ws, w ≠ []) → (∀ w ∈ ws, ∀ c ∈ w, isPySpace c = false) →
    splitWs (joinWordsSpace ws) = ws := by
  intro ws
  induction ws with
  | nil => intro _ _; simp [joinWordsSpace, splitWs, splitWsAux]
  | cons w ws' ih =>
    intro hne hsp
    rcases ws' with _ | ⟨w2, ws''⟩
    · have hw := hne w (List.mem_singleton_self _)
      unfold splitWs
      have : joinWordsSpace [w] = w ++ [] := by simp [joinWordsSpace]
      rw [this, splitWsAux_append_nonspace w [] []
        (hsp w (List.mem_singleton_self _))]
      simp only [splitWsAux, List.append_nil]
      rw [if_neg (by simpa using hw)]
      simp
    · have hjoin : joinWordsSpace (w :: w2 :: ws'') = w ++ ' ' :: joinWordsSpace (w2 :: ws'') := rfl
      unfold splitWs
      rw [hjoin, splitWsAux_append_nonspace w [] _
        (hsp w (List.mem_cons_self _ _))]
      have hsp' : isPySpace ' ' = true := by decide
      simp only [splitWsAux, hsp', if_true, List.append_nil]
      rw [if_neg (by simpa using hne w (List.mem_cons_self _ _))]
      rw [List.reverse_reverse]
      have := ih (fun v hv => hne v (List.mem_cons_of_mem _ hv))
        (fun v hv => hsp v (List.mem_cons_of_mem _ hv))
      unfold splitWs at this
      rw [this]

theorem joinWordsSpace_mem : ∀ (ws : List (List Char)) (c : Char),
    c ∈ joinWordsSpace ws → (∃ w ∈ ws, c ∈ w) ∨ c = ' ' := by
  intro ws
  induction ws with
  | nil => intro c hc; simp [joinWordsSpace] at hc
  | cons w ws' ih =>
    intro c hc
    rcases ws' with _ | ⟨w2, ws''⟩
    · simp only [joinWordsSpace] at hc
      exact Or.inl ⟨w, List.mem_singleton_self _, hc⟩
    · have hjoin : joinWordsSpace (w :: w2 :: ws'') = w ++ ' ' :: joinWordsSpace (w2 :: ws'') := rfl
      rw [hjoin] at hc
      rcases List.mem_append.mp hc with hc | hc
      · exact Or.inl ⟨w, List.mem_cons_self _ _, hc⟩
      · rcases List.mem_cons.mp hc with hc | hc
        · exact Or.inr hc
        · rcases ih c hc with ⟨v, hv, hcv⟩ | hc
          · exact Or.inl ⟨v, List.mem_cons_of_mem _ hv, hcv⟩
          · exact Or.inr hc

theorem joinWordsSpace_ne : ∀ (ws : List (List Char)), ws ≠ [] →
    (∀ w ∈ ws, w ≠ []) → joinWordsSpace ws ≠ [] := by
  intro ws hws hne
  rcases ws with _ | ⟨w, ws'⟩
  · exact absurd rfl hws
  · rcases ws' with _ | ⟨w2, ws''⟩
    · simpa [joinWordsSpace] using hne w (List.mem_singleton_self _)
    · have hjoin : joinWordsSpace (w :: w2 :: ws'') = w ++ ' ' :: joinWordsSpace (w2 :: ws'') := rfl
      rw [hjoin]
      simp

theorem joinWordsSpace_head? : ∀ (ws : List (List Char)),
    (∀ w ∈ ws, w ≠ []) → (∀ w ∈ ws, ∀ c ∈ w, isPySpace c = false) →
    ∀ y, (joinWordsSpace ws).head? = some y → isPySpace y = false := by
  intro ws hne hsp y hy
  rcases ws with _ | ⟨w, ws'⟩
  · simp [joinWordsSpace] at hy
  · have hw : w ≠ [] := hne w (List.mem_cons_self _ _)
    rcases w with _ | ⟨a, w''⟩
    · exact absurd rfl hw
    · have hhead : (joinWordsSpace ((a :: w'') :: ws')).head? = some a := by
        rcases ws' with _ | ⟨w2, ws''⟩
        · simp [joinWordsSpace]
        · rfl
      rw [hhead] at hy
      have hya : a = y := Option.some.inj hy
      rw [← hya]
      exact hsp _ (List.mem_cons_self _ _) a (List.mem_cons_self _ _)

theorem joinWordsSpace_getLast? : ∀ (ws : List (List Char)),
    (∀ w ∈ ws, w ≠ []) → (∀ w ∈ ws, ∀ c ∈ w, isPySpace c = false) →
    ∀ y, (joinWordsSpace ws).getLast? = some y → isPySpace y = false := by
  intro ws
  induction ws with
  | nil => intro _ _ y hy; simp [joinWordsSpace] at hy
  | cons w ws' ih =>
    intro hne hsp y hy
    rcases ws' with _ | ⟨w2, ws''⟩
    · simp only [joinWordsSpace] at hy
      exact hsp w (List.mem_singleton_self _) y (List.mem_of_mem_getLast? hy)
    · have hjoin : joinWordsSpace (w :: w2 :: ws'') = w ++ ' ' :: joinWordsSpace (w2 :: ws'') := rfl
      rw [hjoin, List.getLast?_append_cons] at hy
      have hjn : joinWordsSpace (w2 :: ws'') ≠ [] :=
        joinWordsSpace_ne _ (by simp) (fun v hv => hne v (List.mem_cons_of_mem _ hv))
      rcases hj : joinWordsSpace (w2 :: ws'') with _ | ⟨z, zs⟩
      · exact absurd hj hjn
      · rw [hj, List.getLast?_cons_cons] at hy
        refine ih (fun v hv => hne v (List.mem_cons_of_mem _ hv))
          (fun v hv => hsp v (List.mem_cons_of_mem _ hv)) y ?_
        rw [hj]
        exact hy

theorem pyStripChars_eq_self (l : List Char)
    (hh : ∀ y, l.head? = some y → isPySpace y = false)
    (hl : ∀ y, l.getLast? = some y → isPySpace y = false) :
    pyStripChars l = l := by
  unfold pyStripChars
  have h1 : l.dropWhile isPySpace = l := by
    rcases l with _ | ⟨a, as⟩
    · simp
    · rw [List.dropWhile_cons_of_neg]
      simp [hh a rfl]
  rw [h1]
  have h2 : l.reverse.dropWhile isPySpace = l.reverse := by
    rcases hrev : l.reverse with _ | ⟨a, as⟩
    · simp
    · rw [List.dropWhile_cons_of_neg]
      have : l.getLast? = some a := by
        rw [← List.head?_reverse, hrev]
        rfl
      simp [hl a this]
  rw [h2, List.reverse_reverse]

theorem cleanChars_of_normal (ws : List (List Char))
    (hne : ∀ w ∈ ws, w ≠ []) (hsp : ∀ w ∈ ws, ∀ c ∈ w, isPySpace c = false)
    (hkeep : ∀ w ∈ ws, ∀ c ∈ w, (!emojiChar c) = true ∧ keepChar c = true) :
    cleanChars (joinWordsSpace ws) = joinWordsSpace ws := by
  have hchar : ∀ c ∈ joinWordsSpace ws, (!emojiChar c) = true ∧ keepChar c = true := by
    intro c hc
    rcases joinWordsSpace_mem ws c hc with ⟨w, hw, hcw⟩ | hc'
    · exact hkeep w hw c hcw
    · subst hc'; exact ⟨by decide, by decide⟩
  have hf1 : (joinWordsSpace ws).filter (fun c => !emojiChar c) = joinWordsSpace ws :=
    List.filter_eq_self.mpr fun a ha => (hchar a ha).1
  have hf2 : (joinWordsSpace ws).filter keepChar = joinWordsSpace ws :=
    List.filter_eq_self.mpr fun a ha => (hchar a ha).2
  unfold cleanChars
  rw [hf1, hf2, splitWs_joinWordsSpace ws hne hsp]
  exact pyStripChars_eq_self _ (joinWordsSpace_head? ws hne hsp)
    (joinWordsSpace_getLast? ws hne hsp)

theorem cleanChars_idem (l : List Char) : cleanChars (cleanChars l) = cleanChars l := by
  have hne : ∀ w ∈ splitWs ((l.filter fun c => !emojiChar c).filter keepChar), w ≠ [] :=
    splitWs_ne _
  have hsp : ∀ w ∈ splitWs ((l.filter fun c => !emojiChar c).filter keepChar),
      ∀ c ∈ w, isPySpace c = false :=
    fun w hw c hc => (splitWs_mem _ w hw c hc).2
  have hkeep : ∀ w ∈ splitWs ((l.filter fun c => !emojiChar c).filter keepChar),
      ∀ c ∈ w, (!emojiChar c) = true ∧ keepChar c = true := by
    intro w hw c hc
    have hck := (splitWs_mem _ w hw c hc).1
    rw [List.mem_filter] at hck
    obtain ⟨hc1, hkeepc⟩ := hck
    rw [List.mem_filter] at hc1
    exact ⟨hc1.2, hkeepc⟩
  have hr : cleanChars l
      = joinWordsSpace (splitWs ((l.filter fun c => !emojiChar c).filter keepChar)) := by
    unfold cleanChars
    exact pyStripChars_eq_self _ (joinWordsSpace_head? _ hne hsp)
      (joinWordsSpace_getLast? _ hne hsp)
  rw [hr]
  exact cleanChars_of_normal _ hne hsp hkeep

/-! ### Lemmas about the line wrapper -/

theorem clamp_toNat_ge (a : ℤ) : 12 ≤ (max 12 (min 50 a)).toNat := by
  have h : (12 : ℤ) ≤ max 12 (min 50 a) := le_max_left _ _
  generalize max 12 (min 50 a) = b at h ⊢
  omega

theorem maxCharsPerLine_ge (fs w : ℚ) (meme : Bool) :
    12 ≤ (maxCharsPerLine fs w meme).toNat := by
  simp only [maxCharsPerLine]
  exact clamp_toNat_ge _

theorem truncWord_len (m : ℕ) (hm : 3 ≤ m) (w : List Char) :
    (truncWord m w).length ≤ m := by
  simp only [truncWord, List.length_append, List.length_take, List.length_cons,
    List.length_nil]
  omega

theorem wrapLoop_len (m : ℕ) (hm : 3 ≤ m) :
    ∀ (ws lines : List (List Char)) (current : List Char),
    (∀ l ∈ lines, l.length ≤ m) → current.length ≤ m →
    ∀ l ∈ wrapLoop m ws lines current, l.length ≤ m := by
  intro ws
  induction ws with
  | nil =>
    intro lines current hlines hcur l hl
    rcases current with _ | ⟨c, cs⟩
    · exact hlines l hl
    · simp only [wrapLoop] at hl
      rcases List.mem_append.mp hl with hl | hl
      · exact hlines l hl
      · rw [List.mem_singleton] at hl; subst hl; exact hcur
  | cons w ws' ih =>
    intro lines current hlines hcur l hl
    rcases current with _ | ⟨c, cs⟩
    · simp only [wrapLoop] at hl
      split at hl
      · exact ih lines w hlines (by assumption) l hl
      · refine ih lines _ hlines ?_ l hl
        split
        · exact truncWord_len m hm w
        · omega
    · simp only [wrapLoop] at hl
      split at hl
      · exact ih lines _ hlines (by assumption) l hl
      · refine ih _ _ ?_ ?_ l hl
        · intro l' hl'
          rcases List.mem_append.mp hl' with hl' | hl'
          · exact hlines l' hl'
          · rw [List.mem_singleton] at hl'; subst hl'; exact hcur
        · split
          · exact truncWord_len m hm w
          · omega

theorem wrapLoop_ne (m : ℕ) :
    ∀ (ws lines : List (List Char)) (current : List Char),
    (∀ w ∈ ws, w ≠ []) → (ws ≠ [] ∨ lines ≠ [] ∨ current ≠ []) →
    wrapLoop m ws lines current ≠ [] := by
  intro ws
  induction ws with
  | nil =>
    intro lines current _ hind
    rcases current with _ | ⟨c, cs⟩
    · rcases hind with h | h | h
      · exact absurd rfl h
      · exact h
      · exact absurd rfl h
    · simp [wrapLoop]
  | cons w ws' ih =>
    intro lines current hws _
    have hw : w ≠ [] := hws w (List.mem_cons_self _ _)
    have hws' : ∀ v ∈ ws', v ≠ [] := fun v hv => hws v (List.mem_cons_of_mem _ hv)
    rcases current with _ | ⟨c, cs⟩
    · simp only [wrapLoop]
      split
      · exact ih _ _ hws' (Or.inr (Or.inr hw))
      · refine ih _ _ hws' (Or.inr (Or.inr ?_))
        split
        · simp [truncWord]
        · exact hw
    · simp only [wrapLoop]
      split
      · refine ih _ _ hws' (Or.inr (Or.inr ?_))
        simp
      · refine ih _ _ hws' (Or.inr (Or.inr ?_))
        split
        · simp [truncWord]
        · exact hw

theorem splitTitleText_le3 (text : String) (fs w : ℚ) (meme : Bool) :
    (splitTitleText text fs w meme).length ≤ 3 := by
  simp only [splitTitleText]
  split
  · simp
  · simp only [List.length_map]
    split
    · simp only [List.length_append, List.length_take, List.length_cons, List.length_nil]
      omega
    · omega

theorem splitTitleText_len (text : String) (fs w : ℚ) (meme : Bool) :
    ∀ s ∈ splitTitleText text fs w meme,
      s.length ≤ (maxCharsPerLine fs w meme).toNat := by
  have hm : 3 ≤ (maxCharsPerLine fs w meme).toNat :=
    le_trans (by norm_num) (maxCharsPerLine_ge fs w meme)
  simp only [splitTitleText]
  split
  · intro s hs
    rw [List.mem_singleton] at hs
    subst hs
    assumption
  · intro s hs
    simp only [List.mem_map] at hs
    obtain ⟨l, hl, rfl⟩ := hs
    show l.length ≤ _
    split at hl
    · rcases List.mem_append.mp hl with hl | hl
      · exact wrapLoop_len _ hm _ [] [] (by simp) (by simp) l (List.take_subset 2 _ hl)
      · rw [List.mem_singleton] at hl
        subst hl
        exact truncWord_len _ hm _
    · exact wrapLoop_len _ hm _ [] [] (by simp) (by simp) l hl

theorem splitTitleText_ne (text : String) (fs w : ℚ) (meme : Bool)
    (h : text.length ≤ (maxCharsPerLine fs w meme).toNat ∨ splitWs text.data ≠ []) :
    splitTitleText text fs w meme ≠ [] := by
  simp only [splitTitleText]
  split
  · simp
  · rename_i hfit
    rcases h with h | h
    · exact absurd h hfit
    · simp only [ne_eq, List.map_eq_nil_iff]
      split
      · simp
      · exact wrapLoop_ne _ _ [] [] (splitWs_ne text.data) (Or.inl h)

theorem splitTitleText_collapse (text : String) (fs w : ℚ) (meme : Bool)
    (h1 : ¬ text.length ≤ (maxCharsPerLine fs w meme).toNat)
    (h2 : 3 < (wrapLoop (maxCharsPerLine fs w meme).toNat (splitWs text.data) [] []).length) :
    splitTitleText text fs w meme
      = ((wrapLoop (maxCharsPerLine fs w meme).toNat (splitWs text.data) [] []).take 2
          ++ [truncWord (maxCharsPerLine fs w meme).toNat
              ((wrapLoop (maxCharsPerLine fs w meme).toNat (splitWs text.data) [] []).getD 1 [])]).map
          (fun l => (⟨l⟩ : String)) := by
  simp only [splitTitleText]
  rw [if_neg h1, if_pos h2]

/-! ### Claim theorems -/

/-- C1 counterexample: the claim fails as stated.  For the segment below
(one 21-character word `0→0.05`, then `b` at `0.1→0.2`), the two produced
cues get their ends pushed to `start + 0.5`, and the overlap pass can only
cut the first end down to `start + 0.3 = 0.3`, which is still after the
second cue's start `0.1`: adjacent non-overlap does not hold. -/
theorem c1_counterexample :
    createSubtitleFile
        [⟨"x", 0, 1, [⟨"aaaaaaaaaaaaaaaaaaaaa", 0, 0.05⟩, ⟨"b", 0.1, 0.2⟩]⟩]
      = some [⟨"AAAAAAAAAAAAAAAAAAAAA", 0, 0.3⟩, ⟨"B", 0.1, 0.6⟩] ∧
    ¬ pairNonoverlap [⟨"AAAAAAAAAAAAAAAAAAAAA", 0, 0.3⟩, ⟨"B", 0.1, 0.6⟩] := by
  with_unfolding_all decide

/-- C1 (amended): for every cue list produced by `create_subtitle_file`,
after the overlap-resolution pass every adjacent pair satisfies
`cue[i].end ≤ max (cue[i].start + 0.3) cue[i+1].start`, and every resolved
cue keeps its text and start and ends no earlier than
`min(pre-resolution end, start + 0.3)`. -/
theorem c1_resolved_bounds : ∀ (segs : List Segment) (cues : List Cue),
    createSubtitleFile segs = some cues →
    pairBound cues ∧
    ∀ c ∈ cues, ∃ c0 ∈ sortCues (buildChunks segs),
      c.text = c0.text ∧ c.start = c0.start ∧ min c0.stop (c0.start + 0.3) ≤ c.stop := by
  intro segs cues h
  unfold createSubtitleFile at h
  split at h
  · simp at h
  · injection h with h
    subst h
    exact ⟨resolve_pairBound _, resolve_mem _⟩

/-- C1 witness: the amended bounds at the concrete counterexample input. -/
theorem c1_witness :
    pairBound [⟨"AAAAAAAAAAAAAAAAAAAAA", (0 : ℚ), 0.3⟩, ⟨"B", 0.1, 0.6⟩] ∧
    ∀ c ∈ ([⟨"AAAAAAAAAAAAAAAAAAAAA", (0 : ℚ), 0.3⟩, ⟨"B", 0.1, 0.6⟩] : List Cue),
      ∃ c0 ∈ sortCues (buildChunks
        [⟨"x", 0, 1, [⟨"aaaaaaaaaaaaaaaaaaaaa", 0, 0.05⟩, ⟨"b", 0.1, 0.2⟩]⟩]),
      c.text = c0.text ∧ c.start = c0.start ∧ min c0.stop (c0.start + 0.3) ≤ c.stop :=
  c1_resolved_bounds _ _ (by with_unfolding_all rfl)

/-- C2: the overlap-resolution pass applies exactly the pair rule of the
spec (`cue[i].end > cue[i+1].start` clamps `cue[i].end` to
`max(cue[i].start + 0.3, cue[i+1].start − 0.1)`, all positions read from
the pre-pass list), and on the scenario cues `{0, 1.2}`, `{1.0, 2.0}` the
first cue's end becomes `0.9`. -/
theorem c2_resolution_rule :
    (∀ (cues : List Cue) (i : ℕ), i + 1 < cues.length →
      (resolveOverlaps cues).getD i defaultCue
        = resolvePairSpec (cues.getD i defaultCue) (cues.getD (i + 1) defaultCue)) ∧
    resolveOverlaps [⟨"A", 0, 1.2⟩, ⟨"B", 1, 2⟩] = [⟨"A", 0, 0.9⟩, ⟨"B", 1, 2⟩] :=
  ⟨resolve_getD, by with_unfolding_all decide⟩

/-- C2 witness: the pair rule applied at index 0 of the scenario list. -/
theorem c2_witness :
    0 + 1 < ([⟨"A", 0, 1.2⟩, ⟨"B", 1, 2⟩] : List Cue).length ∧
    (resolveOverlaps [⟨"A", 0, 1.2⟩, ⟨"B", 1, 2⟩]).getD 0 defaultCue
      = resolvePairSpec (([⟨"A", 0, 1.2⟩, ⟨"B", 1, 2⟩] : List Cue).getD 0 defaultCue)
          (([⟨"A", 0, 1.2⟩, ⟨"B", 1, 2⟩] : List Cue).getD 1 defaultCue) :=
  ⟨by decide, c2_resolution_rule.1 [⟨"A", 0, 1.2⟩, ⟨"B", 1, 2⟩] 0 (by decide)⟩

/-- C3: the cue `{text: "HELLO WORLD", start: 1.234, end: 2.5}` serializes
to index 1, the timestamp line `00:00:01,234 --> 00:00:02,500` (zero-padded
fields, 3-digit milliseconds), the text line, and a blank separator line. -/
theorem c3_srt_scenario :
    srtFileContent [⟨"HELLO WORLD", 1.234, 2.5⟩]
      = "1\n00:00:01,234 --> 00:00:02,500\nHELLO WORLD\n\n" := by
  with_unfolding_all rfl

/-- C4 counterexample: an empty segment list is treated as an error by
`create_subtitle_file` (it prints an error and returns `False`, modelled as
`none`), so the claim that an empty input yields an empty cue list with no
error signal is false for empty segment input. -/
theorem c4_counterexample :
    createSubtitleFile [] = none ∧ createSubtitleFile [] ≠ some [] := by
  with_unfolding_all decide

/-- C4 (amended): an empty word list gives an empty chunk list from
`_create_smart_chunks` without any error, and a nonempty segment list that
produces no cues (blank text) succeeds with an empty cue list; but an empty
segment list itself is rejected as an error by `create_subtitle_file`. -/
theorem c4_empty_inputs :
    createSmartChunks ([] : List Word) = [] ∧
    createSubtitleFile [⟨"  ", 0, 1, []⟩] = some [] ∧
    createSubtitleFile [] = none := by
  with_unfolding_all decide

/-- C5 counterexample: five one-character words have joined text
`a b c d e` of length 9 ≤ 20, so the keep-whole-phrase shortcut returns a
single 5-word chunk, exceeding the claimed 4-word bound. -/
theorem c5_counterexample :
    (createSmartChunks
        [⟨"a", 0, 0.1⟩, ⟨"b", 0.1, 0.2⟩, ⟨"c", 0.2, 0.3⟩, ⟨"d", 0.3, 0.4⟩,
         ⟨"e", 0.4, 0.5⟩]).map List.length = [5] := by
  with_unfolding_all decide

/-- C5 (amended): every chunk produced by `_create_smart_chunks` has at
most 4 words provided the input has at most 4 words or its joined stripped
text exceeds 20 characters (i.e. whenever the keep-whole-phrase shortcut
cannot return a longer-than-4 chunk); in particular the growth loop itself
never exceeds 4 words per chunk. -/
theorem c5_word_bound : ∀ (ws : List Word),
    (20 < (allWordsText ws).length ∨ ws.length ≤ 4) →
    ∀ c ∈ createSmartChunks ws, c.length ≤ 4 := by
  intro ws h c hc
  unfold createSmartChunks at hc
  split at hc
  · simp at hc
  · split at hc
    · rename_i hcond
      rw [List.mem_singleton] at hc
      subst hc
      rcases h with h | h
      · omega
      · exact h
    · exact chunksLoop_len_le _ _ c hc

/-- C5 witness: the 4-word bound at a concrete 2-word input. -/
theorem c5_witness :
    (20 < (allWordsText [⟨"hello", 0, 0.2⟩, ⟨"there", 0.25, 0.5⟩]).length ∨
      ([⟨"hello", 0, 0.2⟩, ⟨"there", (0.25 : ℚ), 0.5⟩] : List Word).length ≤ 4) ∧
    ∀ c ∈ createSmartChunks [⟨"hello", 0, 0.2⟩, ⟨"there", 0.25, 0.5⟩], c.length ≤ 4 :=
  ⟨Or.inr (by decide),
   c5_word_bound [⟨"hello", 0, 0.2⟩, ⟨"there", 0.25, 0.5⟩] (Or.inr (by decide))⟩

/-- C6: with the words `A lonely word here finally` at uniform 0.3s spacing
and no pauses, `_create_smart_chunks` fills a 4-word chunk and then emits
the single word `finally` as a final orphan cue, although the chunking
`[A lonely word] [here finally]` obeys the 4-word and 20-character bounds —
contradicting the function's own stated purpose ("avoid orphaned single
words") and the spec.  This theorem evaluates the code at that failing
input. -/
theorem c6_orphan_emitted :
    (createSmartChunks
        [⟨"A", 0, 0.3⟩, ⟨"lonely", 0.3, 0.6⟩, ⟨"word", 0.6, 0.9⟩,
         ⟨"here", 0.9, 1.2⟩, ⟨"finally", 1.2, 1.5⟩]).map (List.map Word.word)
      = [["A", "lonely", "word", "here"], ["finally"]] := by
  with_unfolding_all decide

/-- C7 counterexample: under meme style with `fontSize = 40`,
`videoWidth = 1080`, the code computes `int(864/32) = 27`, then applies the
extra meme reduction `int(27 × 0.9) = 24`, while the claimed formula
`clamp(usableWidth/charWidth, 12, 50)` gives 27. -/
theorem c7_counterexample :
    ((maxCharsPerLine 40 1080 true : ℤ) : ℚ) ≠ maxCharsPerLineClaim 40 1080 true := by
  with_unfolding_all decide

/-- C7 (amended): for positive font size and width, the Line Wrapper
computes per-character width `fontSize × 0.8` (meme) or `fontSize × 0.6`,
usable width `0.8 × videoWidth`, and
`maxCharsPerLine = clamp(base, 12, 50)` where `base` is the floor of
`usableWidth/charWidth`, additionally reduced to `⌊base × 0.9⌋` under meme
style. -/
theorem c7_formula (fontSize videoWidth : ℚ) (meme : Bool)
    (hf : 0 < fontSize) (hw : 0 < videoWidth) :
    maxCharsPerLine fontSize videoWidth meme
      = max 12 (min 50
          (if meme then ⌊(⌊0.8 * videoWidth / (fontSize * 0.8)⌋ : ℚ) * 0.9⌋
           else ⌊0.8 * videoWidth / (fontSize * 0.6)⌋)) := by
  have hq8 : (0 : ℚ) < 0.8 := by norm_num
  have hq6 : (0 : ℚ) < 0.6 := by norm_num
  have hq9 : (0 : ℚ) ≤ 0.9 := by norm_num
  simp only [maxCharsPerLine]
  cases meme with
  | false =>
    simp only [if_false, Bool.false_eq_true]
    rw [pyInt_eq_floor _ (by positivity), mul_comm videoWidth]
  | true =>
    simp only [if_true]
    have hbase : (0 : ℚ) ≤ videoWidth * 0.8 / (fontSize * 0.8) := by positivity
    rw [pyInt_eq_floor _ hbase,
      pyInt_eq_floor _ (mul_nonneg (by exact_mod_cast Int.floor_nonneg.mpr hbase) hq9),
      mul_comm videoWidth]

/-- C7 witness: the amended formula at `fontSize = 40`, `videoWidth = 1080`,
meme style. -/
theorem c7_witness :
    (0 : ℚ) < 40 ∧ (0 : ℚ) < 1080 ∧
    maxCharsPerLine 40 1080 true
      = max 12 (min 50
          (if true then ⌊(⌊(0.8 : ℚ) * 1080 / (40 * 0.8)⌋ : ℚ) * 0.9⌋
           else ⌊(0.8 : ℚ) * 1080 / (40 * 0.6)⌋)) :=
  ⟨by norm_num, by norm_num, c7_formula 40 1080 true (by norm_num) (by norm_num)⟩

/-- C8 counterexample: a 15-space text with normal style, `fontSize = 100`,
`videoWidth = 1080` (so `maxCharsPerLine = 14 < 15`) makes the greedy loop
run with zero words, and `_split_title_text` returns an empty list — the
claimed lower bound of 1 line fails. -/
theorem c8_counterexample :
    splitTitleText "               " 100 1080 false = [] ∧
    ¬ 1 ≤ (splitTitleText "               " 100 1080 false).length := by
  with_unfolding_all decide

/-- C8 (amended): the Line Wrapper always returns at most 3 lines; no line
that does not end in an ellipsis exceeds the computed `maxCharsPerLine`;
it returns at least 1 line whenever the text fits within `maxCharsPerLine`
or contains at least one whitespace-separated word (an over-long
all-whitespace text yields an empty list); and when the text does not fit
entirely and greedy packing yields more than 3 lines, the output is the
first two greedy lines plus an ellipsis-truncated copy of the second (the
overflow beyond the second line is dropped). -/
theorem c8_wrapper_bounds (text : String) (fs w : ℚ) (meme : Bool) :
    (splitTitleText text fs w meme).length ≤ 3 ∧
    (∀ s ∈ splitTitleText text fs w meme, ¬ endsWithDots s.data = true
      → s.length ≤ (maxCharsPerLine fs w meme).toNat) ∧
    ((text.length ≤ (maxCharsPerLine fs w meme).toNat ∨ splitWs text.data ≠ [])
      → 1 ≤ (splitTitleText text fs w meme).length) ∧
    (¬ text.length ≤ (maxCharsPerLine fs w meme).toNat →
      3 < (wrapLoop (maxCharsPerLine fs w meme).toNat (splitWs text.data) [] []).length →
      splitTitleText text fs w meme
        = ((wrapLoop (maxCharsPerLine fs w meme).toNat (splitWs text.data) [] []).take 2
            ++ [truncWord (maxCharsPerLine fs w meme).toNat
                ((wrapLoop (maxCharsPerLine fs w meme).toNat (splitWs text.data) [] []).getD 1 [])]).map
            (fun l => (⟨l⟩ : String))) :=
  ⟨splitTitleText_le3 text fs w meme,
   fun s hs _ => splitTitleText_len text fs w meme s hs,
   fun h => List.length_pos.mpr (splitTitleText_ne text fs w meme h),
   splitTitleText_collapse text fs w meme⟩

/-- C8 witness: the wrapper bounds at the concrete input `GG WP`, and the
more-than-3-greedy-lines collapse at a concrete four-word input (each word
12 characters, `maxCharsPerLine = 14`): the greedy loop yields 4 lines and
the output is the first two plus an ellipsis-truncated copy of the second. -/
theorem c8_witness :
    (splitTitleText "GG WP" 100 1080 false).length ≤ 3 ∧
    (∀ s ∈ splitTitleText "GG WP" 100 1080 false, ¬ endsWithDots s.data = true
      → s.length ≤ (maxCharsPerLine 100 1080 false).toNat) ∧
    1 ≤ (splitTitleText "GG WP" 100 1080 false).length ∧
    ¬ ("aaaaaaaaaaaa bbbbbbbbbbbb cccccccccccc dddddddddddd".length
        ≤ (maxCharsPerLine 100 1080 false).toNat) ∧
    3 < (wrapLoop (maxCharsPerLine 100 1080 false).toNat
          (splitWs "aaaaaaaaaaaa bbbbbbbbbbbb cccccccccccc dddddddddddd".data) [] []).length ∧
    splitTitleText "aaaaaaaaaaaa bbbbbbbbbbbb cccccccccccc dddddddddddd" 100 1080 false
      = ["aaaaaaaaaaaa", "bbbbbbbbbbbb", "bbbbbbbbbbb..."] :=
  ⟨(c8_wrapper_bounds "GG WP" 100 1080 false).1,
   (c8_wrapper_bounds "GG WP" 100 1080 false).2.1,
   (c8_wrapper_bounds "GG WP" 100 1080 false).2.2.1 (Or.inl (by with_unfolding_all decide)),
   by with_unfolding_all decide,
   by with_unfolding_all decide,
   ((c8_wrapper_bounds "aaaaaaaaaaaa bbbbbbbbbbbb cccccccccccc dddddddddddd"
        100 1080 false).2.2.2 (by with_unfolding_all decide)
      (by with_unfolding_all decide)).trans (by with_unfolding_all decide)⟩

/-- C9: the title normalizer `_clean_title_text` is idempotent — cleaning
twice equals cleaning once, for every string.  (It is a pure function of
its input by construction, hence deterministic and side-effect-free.) -/
theorem c9_normalizer_idempotent (s : String) :
    cleanTitleText (cleanTitleText s) = cleanTitleText s :=
  congrArg String.mk (cleanChars_idem s.data)

/-- C10: `_create_smart_chunks` partitions its input: the produced chunks
concatenate back to exactly the original word list, and every chunk is
nonempty. -/
theorem c10_partition (ws : List Word) :
    (createSmartChunks ws).flatten = ws ∧ ∀ c ∈ createSmartChunks ws, c ≠ [] := by
  constructor
  · unfold createSmartChunks
    split
    · rename_i h; rw [h]; rfl
    · split
      · simp
      · exact chunksLoop_flatten _ _ (le_refl _)
  · intro c hc
    unfold createSmartChunks at hc
    split at hc
    · simp at hc
    · rename_i hne
      split at hc
      · rw [List.mem_singleton] at hc
        subst hc
        exact hne
      · exact chunksLoop_ne _ _ c hc

/-- C10 witness: the partition property at a concrete 2-word input. -/
theorem c10_witness :
    (createSmartChunks [⟨"hi", 0, 0.2⟩, ⟨"there", 0.25, 0.5⟩]).flatten
      = [⟨"hi", 0, 0.2⟩, ⟨"there", 0.25, 0.5⟩] ∧
    ([⟨"hi", (0 : ℚ), 0.2⟩, ⟨"there", 0.25, 0.5⟩] : List Word) ≠ [] :=
  ⟨(c10_partition _).1,
   (c10_partition [⟨"hi", 0, 0.2⟩, ⟨"there", 0.25, 0.5⟩]).2 _
     (by with_unfolding_all decide)⟩

end TTVClips
